import Mathlib

/-!
# Verification of the Telegram WebApp init-data verifier

A shallow embedding of `validate_init_data` (src/bot.py, lines 84-116) and of
the library routines it calls: `urllib.parse.parse_qsl` (with its default
arguments: separator `&`, blank values dropped, percent-decoding with UTF-8
`replace` error handling), `dict`, `sorted`, `hmac.new(..., hashlib.sha256)`
with `.digest()` / `.hexdigest()`, and `hmac.compare_digest` on `str`
arguments (which raises `TypeError` when either argument is not pure ASCII;
that exception path is modelled explicitly with `Except`).

Python `str` values are modelled as Lean `String` (sequences of Unicode scalar
values; Python strings containing lone surrogates are not representable and
are outside the model). Byte strings are modelled as `List Nat` with every
element below 256.
-/

/-! ## SHA-256 over byte lists (hashlib.sha256) -/

def w32 : Nat := 4294967296

def rotr32 (n x : Nat) : Nat := ((x >>> n) ||| (x <<< (32 - n))) % w32

def bsig0 (x : Nat) : Nat := (rotr32 2 x) ^^^ (rotr32 13 x) ^^^ (rotr32 22 x)

def bsig1 (x : Nat) : Nat := (rotr32 6 x) ^^^ (rotr32 11 x) ^^^ (rotr32 25 x)

def ssig0 (x : Nat) : Nat := (rotr32 7 x) ^^^ (rotr32 18 x) ^^^ (x >>> 3)

def ssig1 (x : Nat) : Nat := (rotr32 17 x) ^^^ (rotr32 19 x) ^^^ (x >>> 10)

def chN (x y z : Nat) : Nat := (x &&& y) ^^^ ((x ^^^ 4294967295) &&& z)

def majN (x y z : Nat) : Nat := (x &&& y) ^^^ (x &&& z) ^^^ (y &&& z)

def sha256K : List Nat :=
  [1116352408, 1899447441, 3049323471, 3921009573, 961987163, 1508970993,
   2453635748, 2870763221, 3624381080, 310598401, 607225278, 1426881987,
   1925078388, 2162078206, 2614888103, 3248222580, 3835390401, 4022224774,
   264347078, 604807628, 770255983, 1249150122, 1555081692, 1996064986,
   2554220882, 2821834349, 2952996808, 3210313671, 3336571891, 3584528711,
   113926993, 338241895, 666307205, 773529912, 1294757372, 1396182291,
   1695183700, 1986661051, 2177026350, 2456956037, 2730485921, 2820302411,
   3259730800, 3345764771, 3516065817, 3600352804, 4094571909, 275423344,
   430227734, 506948616, 659060556, 883997877, 958139571, 1322822218,
   1537002063, 1747873779, 1955562222, 2024104815, 2227730452, 2361852424,
   2428436474, 2756734187, 3204031479, 3329325298]

/-- Extend the message schedule; `acc` holds the words most-recent-first and
`n` counts the words still to generate. -/
def schedExt : Nat → List Nat → List Nat
  | 0, acc => acc
  | n + 1, acc =>
    let nw := (ssig1 (acc.get! 1) + acc.get! 6 + ssig0 (acc.get! 14) + acc.get! 15) % w32
    schedExt n (nw :: acc)

def mkSched (block : List Nat) : List Nat :=
  (schedExt 48 block.reverse).reverse

def sha256Round : Nat × Nat × Nat × Nat × Nat × Nat × Nat × Nat → Nat × Nat →
    Nat × Nat × Nat × Nat × Nat × Nat × Nat × Nat
  | (a, b, c, d, e, f, g, h), (k, w) =>
    let t1 := (h + bsig1 e + chN e f g + k + w) % w32
    let t2 := (bsig0 a + majN a b c) % w32
    ((t1 + t2) % w32, a, b, c, (d + t1) % w32, e, f, g)

def sha256Compress (h : Nat × Nat × Nat × Nat × Nat × Nat × Nat × Nat) (block : List Nat) :
    Nat × Nat × Nat × Nat × Nat × Nat × Nat × Nat :=
  let s := (List.zip sha256K (mkSched block)).foldl sha256Round h
  match h, s with
  | (a0, b0, c0, d0, e0, f0, g0, h0), (a, b, c, d, e, f, g, hh) =>
    ((a0 + a) % w32, (b0 + b) % w32, (c0 + c) % w32, (d0 + d) % w32,
     (e0 + e) % w32, (f0 + f) % w32, (g0 + g) % w32, (h0 + hh) % w32)

/-- Split padded bytes into 64-byte blocks of 16 big-endian 32-bit words.
Fuel-based structural recursion so the kernel can evaluate it. -/
def toBlocksF : Nat → List Nat → List (List Nat)
  | 0, _ => []
  | _, [] => []
  | fuel + 1, b :: rest =>
    let blk := (b :: rest).take 64
    let words := (List.range 16).map fun i =>
      ((blk.get! (4*i)) <<< 24) + ((blk.get! (4*i+1)) <<< 16) +
        ((blk.get! (4*i+2)) <<< 8) + blk.get! (4*i+3)
    words :: toBlocksF fuel (rest.drop 63)

def toBlocks (bs : List Nat) : List (List Nat) := toBlocksF bs.length bs

/-- Merkle-Damgard padding: `0x80`, zeros to 56 mod 64, 8-byte big-endian bit length. -/
def sha256pad (msg : List Nat) : List Nat :=
  let len := msg.length
  msg ++ 128 :: List.replicate ((119 - len % 64) % 64) 0
      ++ [((8*len) >>> 56) % 256, ((8*len) >>> 48) % 256, ((8*len) >>> 40) % 256,
          ((8*len) >>> 32) % 256, ((8*len) >>> 24) % 256, ((8*len) >>> 16) % 256,
          ((8*len) >>> 8) % 256, (8*len) % 256]

def sha256words (msg : List Nat) : Nat × Nat × Nat × Nat × Nat × Nat × Nat × Nat :=
  (toBlocks (sha256pad msg)).foldl sha256Compress
    (1779033703, 3144134277, 1013904242, 2773480762, 1359893119, 2600822924, 528734635, 1541459225)

def wordBytes (x : Nat) : List Nat := [(x >>> 24) % 256, (x >>> 16) % 256, (x >>> 8) % 256, x % 256]

/-- `hashlib.sha256(msg).digest()` as a list of 32 bytes. -/
def sha256 (msg : List Nat) : List Nat :=
  let t := sha256words msg
  wordBytes t.1 ++ wordBytes t.2.1 ++ wordBytes t.2.2.1 ++ wordBytes t.2.2.2.1 ++
  wordBytes t.2.2.2.2.1 ++ wordBytes t.2.2.2.2.2.1 ++ wordBytes t.2.2.2.2.2.2.1 ++
  wordBytes t.2.2.2.2.2.2.2

/-- `hmac.new(key, msg, hashlib.sha256).digest()`: pad (or hash) the key to the
64-byte block size, then nested inner/outer hashing with the 0x36/0x5c pads. -/
def hmacSha256 (key msg : List Nat) : List Nat :=
  let k0 := if key.length > 64 then sha256 key else key
  let k := k0 ++ List.replicate (64 - k0.length) 0
  sha256 ((k.map (fun b => b ^^^ 92)) ++ sha256 ((k.map (fun b => b ^^^ 54)) ++ msg))

def hexChar (n : Nat) : Char := "0123456789abcdef".data.getD n ' '

/-- Lowercase hex rendering of a byte list (`.hexdigest()` on a digest). -/
def bytesHex (bs : List Nat) : List Char :=
  bs.flatMap fun b => [hexChar (b / 16), hexChar (b % 16)]

/-! ## Python strings: UTF-8 encoding, and decoding with errors=replace -/

/-- `str.encode()` of one scalar value: standard UTF-8. -/
def utf8EncodeChar (c : Nat) : List Nat :=
  if c < 128 then [c]
  else if c < 2048 then [192 ||| (c >>> 6), 128 ||| (c &&& 63)]
  else if c < 65536 then
    [224 ||| (c >>> 12), 128 ||| ((c >>> 6) &&& 63), 128 ||| (c &&& 63)]
  else
    [240 ||| (c >>> 18), 128 ||| ((c >>> 12) &&& 63), 128 ||| ((c >>> 6) &&& 63), 128 ||| (c &&& 63)]

/-- `s.encode()` (UTF-8) as a byte list. -/
def strBytes (s : String) : List Nat := s.data.flatMap fun c => utf8EncodeChar c.toNat

def replChar : Char := Char.ofNat 0xFFFD

/-- Continuation byte 0x80-0xBF. -/
def contB (b : Nat) : Bool := 128 ≤ b && b < 192

/-- `bytes.decode("utf-8", errors="replace")` as CPython implements it: each
maximal subpart of an ill-formed sequence becomes one U+FFFD. The second-byte
window of 3- and 4-byte sequences depends on the lead byte (E0/ED/F0/F4), which
excludes overlong forms, surrogates and scalar values above 0x10FFFF. -/
def utf8DecodeReplace : List Nat → List Char
  | [] => []
  | b :: rest =>
    if b < 128 then Char.ofNat b :: utf8DecodeReplace rest
    else if b < 194 then replChar :: utf8DecodeReplace rest
    else if b < 224 then
      match rest with
      | [] => [replChar]
      | b1 :: rest1 =>
        if contB b1 then Char.ofNat ((b - 192) * 64 + (b1 - 128)) :: utf8DecodeReplace rest1
        else replChar :: utf8DecodeReplace (b1 :: rest1)
    else if b < 240 then
      match rest with
      | [] => [replChar]
      | b1 :: rest1 =>
        if (if b = 224 then 160 else 128) ≤ b1 && b1 < (if b = 237 then 160 else 192) then
          match rest1 with
          | [] => [replChar]
          | b2 :: rest2 =>
            if contB b2 then
              Char.ofNat ((b - 224) * 4096 + (b1 - 128) * 64 + (b2 - 128)) :: utf8DecodeReplace rest2
            else replChar :: utf8DecodeReplace (b2 :: rest2)
        else replChar :: utf8DecodeReplace (b1 :: rest1)
    else if b < 245 then
      match rest with
      | [] => [replChar]
      | b1 :: rest1 =>
        if (if b = 240 then 144 else 128) ≤ b1 && b1 < (if b = 244 then 144 else 192) then
          match rest1 with
          | [] => [replChar]
          | b2 :: rest2 =>
            if contB b2 then
              match rest2 with
              | [] => [replChar]
              | b3 :: rest3 =>
                if contB b3 then
                  Char.ofNat ((b - 240) * 262144 + (b1 - 128) * 4096 + (b2 - 128) * 64 + (b3 - 128))
                    :: utf8DecodeReplace rest3
                else replChar :: utf8DecodeReplace (b3 :: rest3)
            else replChar :: utf8DecodeReplace (b2 :: rest2)
        else replChar :: utf8DecodeReplace (b1 :: rest1)
    else replChar :: utf8DecodeReplace rest

/-! ## urllib.parse: unquote and parse_qsl -/

def hexVal : Char → Option Nat := fun c =>
  if '0' ≤ c && c ≤ '9' then some (c.toNat - 48)
  else if 'a' ≤ c && c ≤ 'f' then some (c.toNat - 87)
  else if 'A' ≤ c && c ≤ 'F' then some (c.toNat - 55)
  else none

/-- Core of `urllib.parse.unquote` with UTF-8/replace: ASCII characters and
valid `%XY` escapes accumulate (reversed) into the pending byte run `acc`; an
invalid escape contributes a literal `%`; a non-ASCII character flushes the run
through the replace-decoder and passes through unchanged. This walk is
extensionally the CPython implementation (split into ASCII runs, each run
percent-decoded to bytes by `unquote_to_bytes`, then UTF-8-decoded with
`errors="replace"`); CPython's fast path for `%`-free input is the identity on
this walk as well. -/
def unquoteAux : Nat → List Char → List Nat → List Char
  | _, [], acc => utf8DecodeReplace acc.reverse
  | 0, _, acc => utf8DecodeReplace acc.reverse
  | fuel + 1, c :: rest, acc =>
    if c = '%' then
      match rest with
      | c1 :: c2 :: rest2 =>
        match hexVal c1, hexVal c2 with
        | some h, some l => unquoteAux fuel rest2 ((16 * h + l) :: acc)
        | _, _ => unquoteAux fuel rest (37 :: acc)
      | _ => unquoteAux fuel rest (37 :: acc)
    else if c.toNat < 128 then unquoteAux fuel rest (c.toNat :: acc)
    else utf8DecodeReplace acc.reverse ++ c :: unquoteAux fuel rest []

/-- The fuel argument is only a structural-recursion bound: every step consumes
at least one character, so the input length suffices. -/
def pyUnquote (s : List Char) : List Char := unquoteAux s.length s []

/-- `str.replace("+", " ")`, applied by parse_qsl before unquoting. -/
def plusToSpace (s : List Char) : List Char :=
  s.map fun c => if c = '+' then ' ' else c

/-- Python `str.split(sep)` for a one-character separator: n separators yield
n+1 (possibly empty) parts. -/
def pySplit (sep : Char) : List Char → List (List Char)
  | [] => [[]]
  | c :: rest =>
    if c = sep then [] :: pySplit sep rest
    else match pySplit sep rest with
      | [] => [[c]]
      | p :: ps => (c :: p) :: ps

/-- `name_value.split("=", 1)`: split at the first `=` only; `none` when there
is no `=` at all. -/
def splitEq1 : List Char → Option (List Char × List Char)
  | [] => none
  | c :: rest =>
    if c = '=' then some ([], rest)
    else (splitEq1 rest).map fun p => (c :: p.1, p.2)

/-- Per-segment handling of parse_qsl with its default keyword arguments:
segments without `=` and segments whose raw value is empty are dropped
(`keep_blank_values=False`); kept names and values get `+`→space then
percent-decoding. -/
def qslPairs : List (List Char) → List (String × String)
  | [] => []
  | seg :: rest =>
    match splitEq1 seg with
    | none => qslPairs rest
    | some (n, v) =>
      if v.isEmpty then qslPairs rest
      else (String.mk (pyUnquote (plusToSpace n)), String.mk (pyUnquote (plusToSpace v))) :: qslPairs rest

/-- `urllib.parse.parse_qsl(init_data)` with default arguments. -/
def parse_qsl (s : String) : List (String × String) :=
  qslPairs (pySplit '&' s.data)

/-! ## dict, in-place update, pop, sorted -/

/-- One `d[k] = v` step of `dict(pairs)`: replace the value of an existing key
in place, else append. -/
def dictInsert : List (String × String) → String × String → List (String × String)
  | [], kv => [kv]
  | (k, v) :: rest, kv =>
    if k = kv.1 then (k, kv.2) :: rest else (k, v) :: dictInsert rest kv

/-- `dict(pairs)` as an insertion-ordered association list: first-occurrence
order of keys, last-occurrence values. -/
def pyDict (l : List (String × String)) : List (String × String) :=
  l.foldl dictInsert []

/-- First-occurrence lookup in an association list. -/
def listGet (k : String) : List (String × String) → Option String
  | [] => none
  | p :: rest => if p.1 = k then some p.2 else listGet k rest

/-- Last-occurrence lookup. -/
def lastGet (k : String) : List (String × String) → Option String
  | [] => none
  | p :: rest =>
    match lastGet k rest with
    | some v => some v
    | none => if p.1 = k then some p.2 else none

/-- `parsed_data.pop(k)`: the popped value together with the dict without that
entry; `none` when the key is absent (models the `"hash" not in parsed_data`
guard together with the pop on line 94). -/
def popKey (k : String) : List (String × String) → Option (String × List (String × String))
  | [] => none
  | (k0, v) :: rest =>
    if k0 = k then some (v, rest)
    else (popKey k rest).map fun p => (p.1, (k0, v) :: p.2)

/-- Keep only the last occurrence of every key, in place. -/
def dedupLast : List (String × String) → List (String × String)
  | [] => []
  | p :: rest =>
    if p.1 ∈ rest.map Prod.fst then dedupLast rest else p :: dedupLast rest

/-- Python `str` strict comparison: code-point lexicographic. (Lean core's
`String.lt` is proposition-equivalent but is implemented on byte iterators
that the kernel cannot evaluate, so the comparison is spelled out here.) -/
def strLtB : List Char → List Char → Bool
  | [], [] => false
  | [], _ :: _ => true
  | _ :: _, [] => false
  | a :: as, b :: bs =>
    if a.toNat < b.toNat then true
    else if b.toNat < a.toNat then false
    else strLtB as bs

/-- Python tuple comparison on `(key, value)` pairs of strings, in the
non-strict form `¬ q < p` used as the sorting relation of
`sorted(parsed_data.items())`. -/
def tupLeB (p q : String × String) : Bool :=
  if strLtB p.1.data q.1.data then true
  else if strLtB q.1.data p.1.data then false
  else !(strLtB q.2.data p.2.data)

def pairLe (p q : String × String) : Prop := tupLeB p q = true

instance : DecidableRel pairLe := fun p q => by
  unfold pairLe; infer_instance

/-- Comparison by key alone (the spec's "sort lexicographically by key"). -/
def keyLeB (p q : String × String) : Bool := !(strLtB q.1.data p.1.data)

def keyLe (p q : String × String) : Prop := keyLeB p q = true

instance : DecidableRel keyLe := fun p q => by
  unfold keyLe; infer_instance

/-! ## The verifier (src/bot.py lines 84-116) -/

/-- Lines 96-98: `"\n".join(f"{k}={v}" for k, v in sorted(parsed_data.items()))`. -/
def data_check_string (parsed : List (String × String)) : String :=
  String.intercalate "\n" ((List.insertionSort pairLe parsed).map fun p => p.1 ++ "=" ++ p.2)

/-- Lines 100-104: `hmac.new(b"WebAppData", bot_token.encode(), hashlib.sha256).digest()`. -/
def secret_key (bot_token : String) : List Nat :=
  hmacSha256 (strBytes "WebAppData") (strBytes bot_token)

/-- Lines 106-110: `hmac.new(secret_key, data_check_string.encode(), hashlib.sha256).hexdigest()`. -/
def calculated_hash (bot_token : String) (parsed : List (String × String)) : String :=
  String.mk (bytesHex (hmacSha256 (secret_key bot_token) (strBytes (data_check_string parsed))))

def isAsciiStr (s : String) : Bool := s.data.all fun c => c.toNat < 128

/-- `hmac.compare_digest` on two `str` arguments: raises `TypeError` (modelled
as `Except.error`) unless both are pure ASCII, and otherwise is extensionally
string equality (the constant-time execution profile has no model here). -/
def compare_digest (a b : String) : Except Unit Bool :=
  if isAsciiStr a && isAsciiStr b then Except.ok (a == b) else Except.error ()

/-- Lines 91-112 after the dict is built: the `hash` guard and pop, then the
comparison of the received and recomputed signatures. -/
def verifyDict (m : List (String × String)) (bot_token : String) : Except Unit Bool :=
  match popKey "hash" m with
  | none => Except.ok false
  | some (received_hash, parsed) => compare_digest received_hash (calculated_hash bot_token parsed)

/-- The try-block of `validate_init_data` from the parsed pair list onward. -/
def validateCore (pairs : List (String × String)) (bot_token : String) : Except Unit Bool :=
  verifyDict (pyDict pairs) bot_token

/-- The whole try-block (lines 88-112): the only genuinely raising operation on
valid-Unicode inputs is `compare_digest`, whose `TypeError` is the error case. -/
def validate_init_data_body (init_data bot_token : String) : Except Unit Bool :=
  validateCore (parse_qsl init_data) bot_token

/-- `validate_init_data` from the pair list onward, with the
`except Exception: return False` wrapper of lines 114-116. -/
def validatePairs (pairs : List (String × String)) (bot_token : String) : Bool :=
  match validateCore pairs bot_token with
  | Except.ok b => b
  | Except.error _ => false

/-- `validate_init_data(init_data, bot_token)` (lines 84-116). -/
def validate_init_data (init_data bot_token : String) : Bool :=
  validatePairs (parse_qsl init_data) bot_token

/-! ## The spec side (section 4.1 of the design document) -/

/-- Spec step 3: canonical check-string — sort the remaining pairs
lexicographically by key and join each `key=value` with newlines. -/
def specCheckString (pairs : List (String × String)) : String :=
  String.intercalate "\n" ((List.insertionSort keyLe pairs).map fun p => p.1 ++ "=" ++ p.2)

/-- Spec step 4: secondary secret — HMAC-SHA256 of the verification secret
keyed with the fixed literal `"WebAppData"`. -/
def specSecondaryKey (secret : String) : List Nat :=
  hmacSha256 (strBytes "WebAppData") (strBytes secret)

/-- Spec step 5: candidate signature — HMAC-SHA256 of the check-string keyed
with the secondary secret, rendered as lowercase hex. -/
def specSignature (secret : String) (pairs : List (String × String)) : String :=
  String.mk (bytesHex (hmacSha256 (specSecondaryKey secret) (strBytes (specCheckString pairs))))

/-! ## Sanity checks of the embedding on concrete inputs -/

example : sha256 [97, 98, 99] =
    [0xba, 0x78, 0x16, 0xbf, 0x8f, 0x01, 0xcf, 0xea, 0x41, 0x41, 0x40, 0xde, 0x5d, 0xae, 0x22, 0x23,
     0xb0, 0x03, 0x61, 0xa3, 0x96, 0x17, 0x7a, 0x9c, 0xb4, 0x10, 0xff, 0x61, 0xf2, 0x00, 0x15, 0xad] := by
  decide

example : parse_qsl "a=1&b=2&=x&c=&d&e=%7" = [("a", "1"), ("b", "2"), ("", "x"), ("e", "%7")] := by
  decide

example : parse_qsl "a=%C3%A9+x" = [("a", "é x")] := by decide

example : utf8DecodeReplace [237, 160, 128] = [replChar, replChar, replChar] := by decide

example : utf8DecodeReplace [224, 160] = [replChar] := by decide

example : pyDict [("a", "1"), ("b", "2"), ("a", "3")] = [("a", "3"), ("b", "2")] := by decide

example : data_check_string [("b", "2"), ("a", "1")] = "a=1\nb=2" := by decide

/-! ## Order theory of the comparators -/

theorem char_toNat_inj {a b : Char} (h : a.toNat = b.toNat) : a = b :=
  Char.ext (UInt32.ext h)

theorem strLtB_irrefl : ∀ l, strLtB l l = false
  | [] => rfl
  | a :: as => by simp [strLtB, strLtB_irrefl as]

theorem strLtB_asymm : ∀ {l1 l2}, strLtB l1 l2 = true → strLtB l2 l1 = false
  | [], [], h => by simp [strLtB] at h
  | [], _ :: _, _ => rfl
  | _ :: _, [], h => by simp [strLtB] at h
  | a :: as, b :: bs, h => by
    by_cases hab : a.toNat < b.toNat
    · rw [strLtB, if_neg (Nat.lt_asymm hab)]
      rw [if_pos hab]
    · by_cases hba : b.toNat < a.toNat
      · rw [strLtB, if_neg hab, if_pos hba] at h
        simp at h
      · rw [strLtB, if_neg hab, if_neg hba] at h
        rw [strLtB, if_neg hba, if_neg hab]
        exact strLtB_asymm h

theorem strLtB_trans : ∀ {l1 l2 l3}, strLtB l1 l2 = true → strLtB l2 l3 = true →
    strLtB l1 l3 = true
  | [], [], _, h1, _ => by simp [strLtB] at h1
  | [], _ :: _, [], _, h2 => by simp [strLtB] at h2
  | [], _ :: _, _ :: _, _, _ => rfl
  | _ :: _, [], _, h1, _ => by simp [strLtB] at h1
  | _ :: _, _ :: _, [], _, h2 => by simp [strLtB] at h2
  | a :: as, b :: bs, c :: cs, h1, h2 => by
    by_cases hab : a.toNat < b.toNat <;> by_cases hbc : b.toNat < c.toNat
    · rw [strLtB, if_pos (Nat.lt_trans hab hbc)]
    · by_cases hcb : c.toNat < b.toNat
      · rw [strLtB, if_neg hbc, if_pos hcb] at h2
        simp at h2
      · have e : b.toNat = c.toNat := Nat.le_antisymm (Nat.le_of_not_lt hcb) (Nat.le_of_not_lt hbc)
        rw [strLtB, if_pos (e ▸ hab)]
    · by_cases hba : b.toNat < a.toNat
      · rw [strLtB, if_neg hab, if_pos hba] at h1
        simp at h1
      · have e : a.toNat = b.toNat := Nat.le_antisymm (Nat.le_of_not_lt hba) (Nat.le_of_not_lt hab)
        rw [strLtB, if_pos (e ▸ hbc)]
    · by_cases hba : b.toNat < a.toNat
      · rw [strLtB, if_neg hab, if_pos hba] at h1
        simp at h1
      · by_cases hcb : c.toNat < b.toNat
        · rw [strLtB, if_neg hbc, if_pos hcb] at h2
          simp at h2
        · have e1 : a.toNat = b.toNat := Nat.le_antisymm (Nat.le_of_not_lt hba) (Nat.le_of_not_lt hab)
          have e2 : b.toNat = c.toNat := Nat.le_antisymm (Nat.le_of_not_lt hcb) (Nat.le_of_not_lt hbc)
          rw [strLtB, if_neg hab, if_neg hba] at h1
          rw [strLtB, if_neg hbc, if_neg hcb] at h2
          have hac : ¬ a.toNat < c.toNat := by omega
          have hca : ¬ c.toNat < a.toNat := by omega
          rw [strLtB, if_neg hac, if_neg hca]
          exact strLtB_trans h1 h2

theorem strLtB_conn : ∀ {l1 l2}, strLtB l1 l2 = false → strLtB l2 l1 = false → l1 = l2
  | [], [], _, _ => rfl
  | [], _ :: _, h1, _ => by simp [strLtB] at h1
  | _ :: _, [], _, h2 => by simp [strLtB] at h2
  | a :: as, b :: bs, h1, h2 => by
    by_cases hab : a.toNat < b.toNat
    · rw [strLtB, if_pos hab] at h1
      simp at h1
    · by_cases hba : b.toNat < a.toNat
      · rw [strLtB, if_pos hba] at h2
        simp at h2
      · rw [strLtB, if_neg hab, if_neg hba] at h1
        rw [strLtB, if_neg hba, if_neg hab] at h2
        have e := char_toNat_inj (Nat.le_antisymm (Nat.le_of_not_lt hba) (Nat.le_of_not_lt hab))
        rw [e, strLtB_conn h1 h2]

theorem strLtB_tri (a b : List Char) : strLtB a b = true ∨ strLtB b a = true ∨ a = b := by
  by_cases h1 : strLtB a b = true
  · exact Or.inl h1
  · by_cases h2 : strLtB b a = true
    · exact Or.inr (Or.inl h2)
    · exact Or.inr (Or.inr (strLtB_conn (Bool.not_eq_true _ ▸ h1) (Bool.not_eq_true _ ▸ h2)))

theorem strLtB_le_trans {a b c : List Char} (h1 : strLtB b a = false) (h2 : strLtB c b = false) :
    strLtB c a = false := by
  by_contra hca
  rw [Bool.not_eq_false] at hca
  rcases strLtB_tri a b with h | h | h
  · have := strLtB_trans hca h
    rw [h2] at this
    simp at this
  · rw [h] at h1
    simp at h1
  · rw [h] at hca
    rw [hca] at h2
    simp at h2

theorem tupLeB_iff (p q : String × String) :
    tupLeB p q = true ↔
      (strLtB p.1.data q.1.data = true ∨ (p.1 = q.1 ∧ strLtB q.2.data p.2.data = false)) := by
  unfold tupLeB
  by_cases s1 : strLtB p.1.data q.1.data = true
  · rw [if_pos s1]
    simp [s1]
  · rw [if_neg s1]
    by_cases s2 : strLtB q.1.data p.1.data = true
    · rw [if_pos s2]
      constructor
      · intro h
        exact absurd h (by simp)
      · intro h
        rcases h with h | h
        · exact absurd h s1
        · rw [h.1, strLtB_irrefl] at s2
          exact absurd s2 (by simp)
    · rw [if_neg s2]
      have hk : p.1 = q.1 :=
        String.ext (strLtB_conn (Bool.not_eq_true _ ▸ s1) (Bool.not_eq_true _ ▸ s2))
      simp [hk, s1, strLtB_irrefl]

instance : IsTotal (String × String) pairLe := by
  constructor
  intro p q
  unfold pairLe
  rw [tupLeB_iff, tupLeB_iff]
  rcases strLtB_tri p.1.data q.1.data with h | h | h
  · exact Or.inl (Or.inl h)
  · exact Or.inr (Or.inl h)
  · have hk : p.1 = q.1 := String.ext h
    by_cases hv : strLtB q.2.data p.2.data = true
    · exact Or.inr (Or.inr ⟨hk.symm, strLtB_asymm hv⟩)
    · exact Or.inl (Or.inr ⟨hk, Bool.not_eq_true _ ▸ hv⟩)

instance : IsTrans (String × String) pairLe := by
  constructor
  intro p q r hpq hqr
  unfold pairLe at *
  rw [tupLeB_iff] at hpq hqr ⊢
  rcases hpq with h1 | ⟨e1, v1⟩ <;> rcases hqr with h2 | ⟨e2, v2⟩
  · exact Or.inl (strLtB_trans h1 h2)
  · exact Or.inl (e2 ▸ h1)
  · exact Or.inl (e1 ▸ h2)
  · exact Or.inr ⟨e1.trans e2, strLtB_le_trans v1 v2⟩

instance : IsAntisymm (String × String) pairLe := by
  constructor
  intro p q hpq hqp
  unfold pairLe at *
  rw [tupLeB_iff] at hpq hqp
  rcases hpq with h1 | ⟨e1, v1⟩
  · rcases hqp with h2 | ⟨e2, v2⟩
    · rw [strLtB_asymm h1] at h2
      simp at h2
    · rw [e2, strLtB_irrefl] at h1
      simp at h1
  · rcases hqp with h2 | ⟨e2, v2⟩
    · rw [e1, strLtB_irrefl] at h2
      simp at h2
    · have hv : p.2 = q.2 := String.ext (strLtB_conn v2 v1)
      exact Prod.ext e1 hv

theorem keyLe_iff (p q : String × String) : keyLe p q ↔ strLtB q.1.data p.1.data = false := by
  unfold keyLe keyLeB
  simp

instance : IsTotal (String × String) keyLe := by
  constructor
  intro p q
  rw [keyLe_iff, keyLe_iff]
  by_cases h : strLtB q.1.data p.1.data = true
  · exact Or.inr (strLtB_asymm h)
  · exact Or.inl (Bool.not_eq_true _ ▸ h)

instance : IsTrans (String × String) keyLe := by
  constructor
  intro p q r hpq hqr
  rw [keyLe_iff] at *
  exact strLtB_le_trans hpq hqr

/-- On pairs with distinct keys, the by-key comparison implies the full tuple
comparison: this is what makes the spec's "sort by key" and the code's
tuple sort agree on dict items. -/
theorem pairLe_of_keyLe_ne {p q : String × String} (h : keyLe p q) (hne : p.1 ≠ q.1) :
    pairLe p q := by
  rw [keyLe_iff] at h
  unfold pairLe
  rw [tupLeB_iff]
  rcases strLtB_tri p.1.data q.1.data with h1 | h1 | h1
  · exact Or.inl h1
  · rw [h1] at h
    simp at h
  · exact absurd (String.ext h1) hne

/-! ## Hexdigest output shape -/

def hexCharsLower : List Char := "0123456789abcdef".data

theorem hexChar_mem {n : Nat} (h : n < 16) : hexChar n ∈ hexCharsLower := by
  unfold hexChar hexCharsLower
  rw [List.getD_eq_getElem _ ' ' (by simpa using h)]
  exact List.getElem_mem _

theorem wordBytes_lt (x : Nat) : ∀ b ∈ wordBytes x, b < 256 := by
  intro b hb
  simp only [wordBytes, List.mem_cons, List.not_mem_nil, or_false] at hb
  rcases hb with h | h | h | h <;> subst h <;> exact Nat.mod_lt _ (by omega)

theorem append_bytes_lt {l1 l2 : List Nat} (h1 : ∀ b ∈ l1, b < 256) (h2 : ∀ b ∈ l2, b < 256) :
    ∀ b ∈ l1 ++ l2, b < 256 := by
  intro b hb
  rcases List.mem_append.mp hb with h | h
  · exact h1 b h
  · exact h2 b h

theorem sha256_bytes_lt (msg : List Nat) : ∀ b ∈ sha256 msg, b < 256 :=
  append_bytes_lt (append_bytes_lt (append_bytes_lt (append_bytes_lt (append_bytes_lt
    (append_bytes_lt (append_bytes_lt (wordBytes_lt _) (wordBytes_lt _)) (wordBytes_lt _))
    (wordBytes_lt _)) (wordBytes_lt _)) (wordBytes_lt _)) (wordBytes_lt _)) (wordBytes_lt _)

theorem hmacSha256_bytes_lt (key msg : List Nat) : ∀ b ∈ hmacSha256 key msg, b < 256 := by
  unfold hmacSha256
  exact sha256_bytes_lt _

theorem bytesHex_mem {bs : List Nat} (hb : ∀ b ∈ bs, b < 256) :
    ∀ c ∈ bytesHex bs, c ∈ hexCharsLower := by
  intro c hc
  unfold bytesHex at hc
  rw [List.mem_flatMap] at hc
  obtain ⟨b, hbmem, hcin⟩ := hc
  have hblt := hb b hbmem
  simp only [List.mem_cons, List.not_mem_nil, or_false] at hcin
  rcases hcin with h | h
  · exact h ▸ hexChar_mem (Nat.div_lt_of_lt_mul (by omega))
  · exact h ▸ hexChar_mem (Nat.mod_lt _ (by omega))

theorem hexdigest_chars (key msg : List Nat) :
    ∀ c ∈ (String.mk (bytesHex (hmacSha256 key msg))).data, c ∈ hexCharsLower :=
  bytesHex_mem (hmacSha256_bytes_lt key msg)

theorem hexCharsLower_ascii : ∀ c ∈ hexCharsLower, c.toNat < 128 := by decide

theorem hexdigest_ascii (key msg : List Nat) :
    isAsciiStr (String.mk (bytesHex (hmacSha256 key msg))) = true := by
  unfold isAsciiStr
  rw [List.all_eq_true]
  intro c hc
  exact decide_eq_true (hexCharsLower_ascii c (hexdigest_chars key msg c hc))

theorem calculated_hash_ascii (bot_token : String) (parsed : List (String × String)) :
    isAsciiStr (calculated_hash bot_token parsed) = true :=
  hexdigest_ascii _ _

theorem specSignature_ascii (secret : String) (pairs : List (String × String)) :
    isAsciiStr (specSignature secret pairs) = true :=
  hexdigest_ascii _ _

/-! ## Association-list lemmas for pyDict, popKey, dedupLast -/

def keysOf (l : List (String × String)) : List String := l.map Prod.fst

theorem dictInsert_cons_eq {k0 v0 : String} {rest : List (String × String)}
    {kv : String × String} (h : k0 = kv.1) :
    dictInsert ((k0, v0) :: rest) kv = (k0, kv.2) :: rest := by
  rw [dictInsert, if_pos h]

theorem dictInsert_cons_ne {k0 v0 : String} {rest : List (String × String)}
    {kv : String × String} (h : ¬ k0 = kv.1) :
    dictInsert ((k0, v0) :: rest) kv = (k0, v0) :: dictInsert rest kv := by
  rw [dictInsert, if_neg h]

theorem listGet_cons_eq {k0 v0 k : String} {rest : List (String × String)} (h : k0 = k) :
    listGet k ((k0, v0) :: rest) = some v0 := by
  rw [listGet, if_pos h]

theorem listGet_cons_ne {k0 v0 k : String} {rest : List (String × String)} (h : ¬ k0 = k) :
    listGet k ((k0, v0) :: rest) = listGet k rest := by
  rw [listGet, if_neg h]

theorem dictInsert_get (acc : List (String × String)) (kv : String × String) (k : String) :
    listGet k (dictInsert acc kv) = if kv.1 = k then some kv.2 else listGet k acc := by
  induction acc with
  | nil => simp [dictInsert, listGet]
  | cons p rest ih =>
    obtain ⟨k0, v0⟩ := p
    by_cases h : k0 = kv.1
    · rw [dictInsert_cons_eq h]
      by_cases hk : k0 = k
      · rw [listGet_cons_eq hk, if_pos (h ▸ hk)]
      · rw [listGet_cons_ne hk, if_neg (fun e => hk (h.trans e)), listGet_cons_ne hk]
    · rw [dictInsert_cons_ne h]
      by_cases hk : k0 = k
      · rw [listGet_cons_eq hk, if_neg (fun e : kv.1 = k => h (hk.trans e.symm)),
          listGet_cons_eq hk]
      · rw [listGet_cons_ne hk, ih, listGet_cons_ne hk]

theorem lastGet_cons (p : String × String) (rest : List (String × String)) (k : String) :
    lastGet k (p :: rest) =
      match lastGet k rest with
      | some v => some v
      | none => if p.1 = k then some p.2 else none := rfl

theorem foldl_dictInsert_get :
    ∀ (l : List (String × String)) (acc : List (String × String)) (k : String),
      listGet k (l.foldl dictInsert acc) =
        match lastGet k l with
        | some v => some v
        | none => listGet k acc
  | [], acc, k => by simp [lastGet]
  | p :: rest, acc, k => by
    rw [List.foldl_cons, foldl_dictInsert_get rest (dictInsert acc p) k, lastGet_cons]
    cases hr : lastGet k rest with
    | some v => rfl
    | none =>
      rw [dictInsert_get]
      by_cases hp : p.1 = k <;> simp [hp]

theorem pyDict_get (l : List (String × String)) (k : String) :
    listGet k (pyDict l) = lastGet k l := by
  rw [pyDict, foldl_dictInsert_get]
  cases hr : lastGet k l with
  | some v => rfl
  | none => rfl

theorem keysOf_nil : keysOf [] = [] := rfl

theorem keysOf_cons (p : String × String) (l : List (String × String)) :
    keysOf (p :: l) = p.1 :: keysOf l := rfl

theorem keysOf_dictInsert (acc : List (String × String)) (kv : String × String) :
    keysOf (dictInsert acc kv) =
      if kv.1 ∈ keysOf acc then keysOf acc else keysOf acc ++ [kv.1] := by
  induction acc with
  | nil => simp [dictInsert, keysOf]
  | cons p rest ih =>
    obtain ⟨k0, v0⟩ := p
    by_cases h : k0 = kv.1
    · rw [dictInsert_cons_eq h, keysOf_cons, keysOf_cons, if_pos (by simp [h])]
    · rw [dictInsert_cons_ne h, keysOf_cons, keysOf_cons, ih]
      have hne : kv.1 ≠ k0 := fun e => h e.symm
      by_cases hm : kv.1 ∈ keysOf rest
      · rw [if_pos hm, if_pos (by simp [hm])]
      · rw [if_neg hm, if_neg (by simp [hm, hne]), List.cons_append]

theorem keysOf_dictInsert_nodup (acc : List (String × String)) (kv : String × String)
    (h : (keysOf acc).Nodup) : (keysOf (dictInsert acc kv)).Nodup := by
  rw [keysOf_dictInsert]
  by_cases hm : kv.1 ∈ keysOf acc
  · simpa [hm] using h
  · simp only [hm, if_false]
    rw [List.nodup_append]
    exact ⟨h, List.nodup_singleton _, by simpa using hm⟩

theorem foldl_dictInsert_keys_nodup :
    ∀ (l : List (String × String)) (acc : List (String × String)),
      (keysOf acc).Nodup → (keysOf (l.foldl dictInsert acc)).Nodup
  | [], _, h => h
  | p :: rest, acc, h =>
    foldl_dictInsert_keys_nodup rest (dictInsert acc p) (keysOf_dictInsert_nodup acc p h)

theorem pyDict_keys_nodup (l : List (String × String)) : (keysOf (pyDict l)).Nodup :=
  foldl_dictInsert_keys_nodup l [] (by simp [keysOf])

theorem listGet_some_iff_mem_keys (k : String) :
    ∀ l : List (String × String), (∃ v, listGet k l = some v) ↔ k ∈ keysOf l
  | [] => by simp [listGet, keysOf]
  | p :: rest => by
    rw [keysOf_cons, List.mem_cons]
    by_cases h : p.1 = k
    · simp [listGet, h]
    · have step : (∃ v, listGet k (p :: rest) = some v) ↔ ∃ v, listGet k rest = some v := by
        simp only [listGet, if_neg h]
      rw [step, listGet_some_iff_mem_keys k rest]
      constructor
      · exact Or.inr
      · rintro (e | hm)
        · exact absurd e.symm h
        · exact hm

theorem lastGet_some_iff_mem_keys (k : String) :
    ∀ l : List (String × String), (∃ v, lastGet k l = some v) ↔ k ∈ keysOf l
  | [] => by simp [lastGet, keysOf]
  | p :: rest => by
    rw [keysOf_cons, List.mem_cons, ← lastGet_some_iff_mem_keys k rest]
    cases hr : lastGet k rest with
    | some v => simp [lastGet_cons, hr]
    | none =>
      by_cases h : p.1 = k
      · simp [lastGet_cons, hr, h]
      · constructor
        · rintro ⟨v, hv⟩
          rw [lastGet_cons, hr, if_neg h] at hv
          cases hv
        · rintro (e | ⟨v, hv⟩)
          · exact absurd e.symm h
          · cases hv

theorem listGet_mem {k v : String} : ∀ {l : List (String × String)},
    listGet k l = some v → (k, v) ∈ l
  | [], h => by simp [listGet] at h
  | p :: rest, h => by
    by_cases hp : p.1 = k
    · obtain ⟨k0, v0⟩ := p
      rw [listGet_cons_eq hp] at h
      cases h
      cases hp
      exact List.mem_cons_self _ _
    · obtain ⟨k0, v0⟩ := p
      rw [listGet_cons_ne hp] at h
      exact List.mem_cons_of_mem _ (listGet_mem h)

theorem get_of_mem_nodup : ∀ {l : List (String × String)} {k v : String},
    (keysOf l).Nodup → (k, v) ∈ l → listGet k l = some v
  | [], k, v, _, hm => by simp at hm
  | p :: rest, k, v, hn, hm => by
    have hn2 := List.nodup_cons.mp ((keysOf_cons p rest) ▸ hn)
    rcases List.mem_cons.mp hm with h | h
    · rw [← h]
      exact listGet_cons_eq rfl
    · have hk : k ∈ keysOf rest := List.mem_map_of_mem Prod.fst h
      have hp : p.1 ≠ k := fun e => hn2.1 (e ▸ hk)
      obtain ⟨k0, v0⟩ := p
      rw [listGet_cons_ne hp]
      exact get_of_mem_nodup hn2.2 h

theorem popKey_none_iff (k : String) :
    ∀ l : List (String × String), popKey k l = none ↔ k ∉ keysOf l
  | [] => by simp [popKey, keysOf]
  | (k0, v0) :: rest => by
    rw [keysOf_cons, List.mem_cons]
    by_cases h : k0 = k
    · rw [popKey, if_pos h]
      simp [h]
    · rw [popKey, if_neg h]
      rw [show ∀ o : Option (String × List (String × String)),
          (Option.map (fun p => (p.1, (k0, v0) :: p.2)) o = none) = (o = none) from by
        intro o
        cases o <;> simp]
      rw [popKey_none_iff k rest]
      constructor
      · intro hm hh
        rcases hh with e | e
        · exact h e.symm
        · exact hm e
      · intro hm hh
        exact hm (Or.inr hh)

theorem popKey_perm {k : String} :
    ∀ {l : List (String × String)} {v : String} {r : List (String × String)},
      popKey k l = some (v, r) → l.Perm ((k, v) :: r)
  | [], v, r, h => by simp [popKey] at h
  | (k0, v0) :: rest, v, r, h => by
    by_cases hk : k0 = k
    · rw [popKey, if_pos hk] at h
      cases h
      cases hk
      exact List.Perm.refl _
    · rw [popKey, if_neg hk] at h
      cases hr : popKey k rest with
      | none => rw [hr] at h; cases h
      | some pr =>
        obtain ⟨v1, r1⟩ := pr
        rw [hr] at h
        cases h
        exact ((popKey_perm hr).cons (k0, v0)).trans (List.Perm.swap _ _ _)

theorem popKey_get {k : String} :
    ∀ {l : List (String × String)} {v : String} {r : List (String × String)},
      popKey k l = some (v, r) → listGet k l = some v
  | [], v, r, h => by simp [popKey] at h
  | (k0, v0) :: rest, v, r, h => by
    by_cases hk : k0 = k
    · rw [popKey, if_pos hk] at h
      cases h
      exact listGet_cons_eq hk
    · rw [popKey, if_neg hk] at h
      rw [listGet_cons_ne hk]
      cases hr : popKey k rest with
      | none => rw [hr] at h; cases h
      | some pr =>
        obtain ⟨v1, r1⟩ := pr
        rw [hr] at h
        cases h
        exact popKey_get hr

theorem popKey_some_of_mem {k : String} {l : List (String × String)} (hm : k ∈ keysOf l) :
    ∃ v r, popKey k l = some (v, r) := by
  cases hp : popKey k l with
  | none => exact absurd hm ((popKey_none_iff k l).mp hp)
  | some pr =>
    obtain ⟨v, r⟩ := pr
    exact ⟨v, r, rfl⟩

theorem popKey_rest_nodup {k : String} {l : List (String × String)} {v : String}
    {r : List (String × String)} (hn : (keysOf l).Nodup) (h : popKey k l = some (v, r)) :
    (keysOf r).Nodup := by
  have hperm : (keysOf l).Perm (k :: keysOf r) := (popKey_perm h).map Prod.fst
  exact (List.nodup_cons.mp (hperm.nodup_iff.mp hn)).2

theorem mem_of_popKey {k : String} {l : List (String × String)} {v : String}
    {r : List (String × String)} (h : popKey k l = some (v, r)) : (k, v) ∈ l :=
  (popKey_perm h).symm.subset (List.mem_cons_self _ _)

theorem dictInsert_append {acc : List (String × String)} {kv : String × String}
    (h : kv.1 ∉ keysOf acc) : dictInsert acc kv = acc ++ [kv] := by
  induction acc with
  | nil => rfl
  | cons p rest ih =>
    obtain ⟨k0, v0⟩ := p
    rw [keysOf_cons, List.mem_cons] at h
    push_neg at h
    rw [dictInsert_cons_ne (fun e => h.1 e.symm), List.cons_append, ih h.2]

theorem foldl_dictInsert_of_disjoint :
    ∀ {l acc : List (String × String)}, (∀ a ∈ keysOf l, a ∉ keysOf acc) →
      (keysOf l).Nodup → l.foldl dictInsert acc = acc ++ l
  | [], acc, _, _ => by simp
  | p :: rest, acc, hd, hn => by
    rw [List.foldl_cons, dictInsert_append (hd p.1 (by rw [keysOf_cons]; exact List.mem_cons_self _ _)),
      foldl_dictInsert_of_disjoint (fun a ha => ?_) (List.nodup_cons.mp ((keysOf_cons p rest) ▸ hn)).2,
      List.append_assoc, List.singleton_append]
    intro hmem
    rw [keysOf, List.map_append] at hmem
    rcases List.mem_append.mp hmem with hm | hm
    · exact hd a (by rw [keysOf_cons]; exact List.mem_cons_of_mem _ ha) hm
    · have : a = p.1 := by simpa [keysOf] using hm
      exact (List.nodup_cons.mp ((keysOf_cons p rest) ▸ hn)).1 (this ▸ ha)

theorem pyDict_of_nodup {l : List (String × String)} (hn : (keysOf l).Nodup) :
    pyDict l = l := by
  rw [pyDict, foldl_dictInsert_of_disjoint (fun a _ => by simp [keysOf]) hn, List.nil_append]

theorem keysOf_dedupLast_sub : ∀ {l : List (String × String)} {a : String},
    a ∈ keysOf (dedupLast l) → a ∈ keysOf l
  | [], a, h => by simp [dedupLast, keysOf] at h
  | p :: rest, a, h => by
    rw [keysOf_cons, List.mem_cons]
    rw [dedupLast] at h
    by_cases hm : p.1 ∈ rest.map Prod.fst
    · rw [if_pos hm] at h
      exact Or.inr (keysOf_dedupLast_sub h)
    · rw [if_neg hm, keysOf_cons, List.mem_cons] at h
      rcases h with h | h
      · exact Or.inl h
      · exact Or.inr (keysOf_dedupLast_sub h)

theorem dedupLast_keys_nodup : ∀ l : List (String × String), (keysOf (dedupLast l)).Nodup
  | [] => by simp [dedupLast, keysOf]
  | p :: rest => by
    rw [dedupLast]
    by_cases hm : p.1 ∈ rest.map Prod.fst
    · rw [if_pos hm]
      exact dedupLast_keys_nodup rest
    · rw [if_neg hm, keysOf_cons, List.nodup_cons]
      exact ⟨fun h => hm (keysOf_dedupLast_sub h), dedupLast_keys_nodup rest⟩

theorem dedupLast_get (k : String) :
    ∀ l : List (String × String), listGet k (dedupLast l) = lastGet k l
  | [] => rfl
  | p :: rest => by
    rw [dedupLast, lastGet_cons]
    by_cases hm : p.1 ∈ rest.map Prod.fst
    · rw [if_pos hm, dedupLast_get k rest]
      cases hr : lastGet k rest with
      | some v => rfl
      | none =>
        by_cases hk : p.1 = k
        · exfalso
          have : k ∈ keysOf rest := hk ▸ hm
          obtain ⟨v, hv⟩ := (lastGet_some_iff_mem_keys k rest).mpr this
          rw [hv] at hr
          cases hr
        · rw [if_neg hk]
    · rw [if_neg hm]
      cases hr : lastGet k rest with
      | some v =>
        have hkm : k ∈ keysOf rest := (lastGet_some_iff_mem_keys k rest).mp ⟨v, hr⟩
        have hk : ¬ p.1 = k := fun e => hm (e ▸ hkm)
        obtain ⟨k0, v0⟩ := p
        rw [listGet_cons_ne hk, dedupLast_get k rest, hr]
      | none =>
        by_cases hk : p.1 = k
        · obtain ⟨k0, v0⟩ := p
          rw [listGet_cons_eq hk, if_pos hk]
        · obtain ⟨k0, v0⟩ := p
          rw [listGet_cons_ne hk, if_neg hk, dedupLast_get k rest, hr]

/-- Two association lists with duplicate-free keys and the same lookup function
are permutations of each other. -/
theorem assoc_perm_of_get_eq {l1 l2 : List (String × String)}
    (h1 : (keysOf l1).Nodup) (h2 : (keysOf l2).Nodup)
    (hg : ∀ k, listGet k l1 = listGet k l2) : l1.Perm l2 := by
  rw [List.perm_ext_iff_of_nodup (List.Nodup.of_map _ h1) (List.Nodup.of_map _ h2)]
  intro p
  obtain ⟨k, v⟩ := p
  constructor
  · intro hm
    exact listGet_mem ((hg k) ▸ get_of_mem_nodup h1 hm)
  · intro hm
    exact listGet_mem ((hg k).symm ▸ get_of_mem_nodup h2 hm)

theorem pyDict_perm_dedupLast (l : List (String × String)) :
    (pyDict l).Perm (dedupLast l) :=
  assoc_perm_of_get_eq (pyDict_keys_nodup l) (dedupLast_keys_nodup l)
    (fun k => by rw [pyDict_get, dedupLast_get])

/-! ## Sorting congruence -/

theorem sortPairs_congr {l1 l2 : List (String × String)} (h : l1.Perm l2) :
    List.insertionSort pairLe l1 = List.insertionSort pairLe l2 :=
  List.eq_of_perm_of_sorted
    ((List.perm_insertionSort _ l1).trans (h.trans (List.perm_insertionSort _ l2).symm))
    (List.sorted_insertionSort _ _) (List.sorted_insertionSort _ _)

theorem data_check_string_congr {l1 l2 : List (String × String)} (h : l1.Perm l2) :
    data_check_string l1 = data_check_string l2 := by
  unfold data_check_string
  rw [sortPairs_congr h]

theorem calculated_hash_congr {l1 l2 : List (String × String)} (t : String) (h : l1.Perm l2) :
    calculated_hash t l1 = calculated_hash t l2 := by
  unfold calculated_hash
  rw [data_check_string_congr h]

/-- The verifier looks at a dict only through the popped hash value and the
sorted remainder, so it is invariant under permutation (with unique keys). -/
theorem verifyDict_congr {m1 m2 : List (String × String)} (t : String)
    (hp : m1.Perm m2) (hn : (keysOf m1).Nodup) : verifyDict m1 t = verifyDict m2 t := by
  have hn2 : (keysOf m2).Nodup := (hp.map Prod.fst).nodup_iff.mp hn
  unfold verifyDict
  cases hp1 : popKey "hash" m1 with
  | none =>
    cases hp2 : popKey "hash" m2 with
    | none => rfl
    | some pr =>
      exfalso
      obtain ⟨v2, r2⟩ := pr
      have hm2 : ("hash", v2) ∈ m2 := mem_of_popKey hp2
      have hm1 : "hash" ∈ keysOf m1 :=
        (hp.map Prod.fst).symm.subset (List.mem_map_of_mem Prod.fst hm2)
      exact (popKey_none_iff _ _).mp hp1 hm1
  | some pr =>
    obtain ⟨v1, r1⟩ := pr
    cases hp2 : popKey "hash" m2 with
    | none =>
      exfalso
      have hm1 : ("hash", v1) ∈ m1 := mem_of_popKey hp1
      have hm2 : "hash" ∈ keysOf m2 :=
        (hp.map Prod.fst).subset (List.mem_map_of_mem Prod.fst hm1)
      exact (popKey_none_iff _ _).mp hp2 hm2
    | some pr2 =>
      obtain ⟨v2, r2⟩ := pr2
      have hv : v1 = v2 := by
        have hm2 : ("hash", v2) ∈ m2 := mem_of_popKey hp2
        have hm1 : ("hash", v2) ∈ m1 := hp.symm.subset hm2
        have := get_of_mem_nodup hn hm1
        rw [popKey_get hp1] at this
        cases this
        rfl
      have hr : r1.Perm r2 := by
        have q1 := popKey_perm hp1
        have q2 := popKey_perm hp2
        rw [← hv] at q2
        exact (q1.symm.trans (hp.trans q2)).cons_inv
      rw [hv]
      show compare_digest v2 (calculated_hash t r1) = compare_digest v2 (calculated_hash t r2)
      rw [calculated_hash_congr t hr]

theorem pairwise_and {α : Type} {R S : α → α → Prop} :
    ∀ {l : List α}, l.Pairwise R → l.Pairwise S → l.Pairwise fun a b => R a b ∧ S a b
  | [], _, _ => List.Pairwise.nil
  | _ :: _, hr, hs => by
    rw [List.pairwise_cons] at *
    exact ⟨fun b hb => ⟨hr.1 b hb, hs.1 b hb⟩, pairwise_and hr.2 hs.2⟩

/-- With duplicate-free keys, sorting by key alone (the spec's step 3) and
sorting by the full `(key, value)` tuple (Python's `sorted`) agree. -/
theorem insertionSort_keyLe_eq_pairLe {l : List (String × String)}
    (hn : (keysOf l).Nodup) :
    List.insertionSort keyLe l = List.insertionSort pairLe l := by
  apply List.eq_of_perm_of_sorted (r := pairLe)
    ((List.perm_insertionSort _ l).trans (List.perm_insertionSort _ l).symm)
    ?_ (List.sorted_insertionSort _ _)
  have hs : List.Sorted keyLe (List.insertionSort keyLe l) := List.sorted_insertionSort _ _
  have hkeys : (keysOf (List.insertionSort keyLe l)).Nodup :=
    (((List.perm_insertionSort keyLe l).map Prod.fst).nodup_iff).mpr hn
  have hne : (List.insertionSort keyLe l).Pairwise fun p q : String × String => p.1 ≠ q.1 := by
    rw [keysOf, List.Nodup, List.pairwise_map] at hkeys
    exact hkeys
  exact (pairwise_and hs hne).imp fun h => pairLe_of_keyLe_ne h.1 h.2

/-- The candidate signature computed on lines 96-110 is exactly the spec's
steps 3-5 composition, on any pair list with duplicate-free keys. -/
theorem calculated_hash_eq_specSignature {t : String} {l : List (String × String)}
    (hn : (keysOf l).Nodup) : calculated_hash t l = specSignature t l := by
  unfold calculated_hash specSignature secret_key specSecondaryKey data_check_string specCheckString
  rw [insertionSort_keyLe_eq_pairLe hn]

/-! ## Claim theorems -/

theorem compare_digest_ok {a b : String} (ha : isAsciiStr a = true) (hb : isAsciiStr b = true) :
    compare_digest a b = Except.ok (a == b) := by
  unfold compare_digest
  rw [if_pos (by rw [ha, hb]; rfl)]

theorem compare_digest_error {a b : String} (ha : isAsciiStr a = false) :
    compare_digest a b = Except.error () := by
  unfold compare_digest
  rw [if_neg (by rw [ha]; simp)]

/-- C1: `verify` returns valid exactly when the payload carries a `hash` field
whose value equals the signature recomputed from the remaining fields by the
two-stage HMAC-SHA256 scheme of section 4.1 (`specSignature`); in every other
case — no `hash` field, or any mismatch — it returns invalid. -/
theorem c1_verify_true_iff_recomputed_signature (init_data secret : String) :
    validate_init_data init_data secret = true ↔
      ∃ h rest, popKey "hash" (pyDict (parse_qsl init_data)) = some (h, rest) ∧
        h = specSignature secret rest := by
  unfold validate_init_data validatePairs validateCore verifyDict
  cases hp : popKey "hash" (pyDict (parse_qsl init_data)) with
  | none => simp
  | some pr =>
    obtain ⟨h0, rest⟩ := pr
    have hnr : (keysOf rest).Nodup := popKey_rest_nodup (pyDict_keys_nodup _) hp
    have hcs : calculated_hash secret rest = specSignature secret rest :=
      calculated_hash_eq_specSignature hnr
    by_cases ha : isAsciiStr h0 = true
    · show (match compare_digest h0 (calculated_hash secret rest) with
        | Except.ok b => b
        | Except.error _ => false) = true ↔ _
      rw [compare_digest_ok ha (calculated_hash_ascii secret rest)]
      show (h0 == calculated_hash secret rest) = true ↔ _
      rw [beq_iff_eq, hcs]
      constructor
      · intro he
        exact ⟨h0, rest, rfl, he⟩
      · rintro ⟨h1, r1, he, hsig⟩
        cases he
        exact hsig
    · have hfalse : isAsciiStr h0 = false := Bool.not_eq_true _ ▸ ha
      show (match compare_digest h0 (calculated_hash secret rest) with
        | Except.ok b => b
        | Except.error _ => false) = true ↔ _
      rw [compare_digest_error hfalse]
      show false = true ↔ _
      constructor
      · intro he
        cases he
      · rintro ⟨h1, r1, he, hsig⟩
        cases he
        rw [hsig] at hfalse
        rw [specSignature_ascii] at hfalse
        cases hfalse

/-- C3: the candidate signature that `verify` compares against the payload's
`hash` field — `calculated_hash` over the remaining dict entries — is computed
exactly as the spec's steps 3-5: sort the remaining percent-decoded pairs by
key, join `key=value` lines with newlines, key the check-string HMAC-SHA256
with the HMAC-SHA256 of the secret under the literal "WebAppData", and render
lowercase hex. -/
theorem c3_candidate_signature_is_spec_composition (init_data bot_token : String)
    (h : String) (rest : List (String × String))
    (hp : popKey "hash" (pyDict (parse_qsl init_data)) = some (h, rest)) :
    calculated_hash bot_token rest = specSignature bot_token rest :=
  calculated_hash_eq_specSignature (popKey_rest_nodup (pyDict_keys_nodup _) hp)

theorem c3_witness :
    popKey "hash" (pyDict (parse_qsl "b=2&a=1&hash=x")) = some ("x", [("b", "2"), ("a", "1")]) ∧
    calculated_hash "token" [("b", "2"), ("a", "1")] = specSignature "token" [("b", "2"), ("a", "1")] := by
  have hp : popKey "hash" (pyDict (parse_qsl "b=2&a=1&hash=x")) =
      some ("x", [("b", "2"), ("a", "1")]) := by decide
  exact ⟨hp, c3_candidate_signature_is_spec_composition "b=2&a=1&hash=x" "token" "x" _ hp⟩

/-- C4: a payload whose parsed pairs contain no `hash` key is rejected. -/
theorem c4_verify_false_without_hash_key (init_data secret : String)
    (h : ∀ p ∈ parse_qsl init_data, p.1 ≠ "hash") :
    validate_init_data init_data secret = false := by
  unfold validate_init_data validatePairs validateCore verifyDict
  have hnk : "hash" ∉ keysOf (pyDict (parse_qsl init_data)) := by
    intro hm
    obtain ⟨v, hv⟩ := (listGet_some_iff_mem_keys _ _).mpr hm
    have hmem := listGet_mem hv
    rw [pyDict_get] at hv
    have hk : "hash" ∈ keysOf (parse_qsl init_data) :=
      (lastGet_some_iff_mem_keys _ _).mp ⟨v, hv⟩
    obtain ⟨p, hp, he⟩ := List.mem_map.mp hk
    exact h p hp he
  rw [(popKey_none_iff _ _).mpr hnk]

theorem c4_witness :
    (∀ p ∈ parse_qsl "auth_date=100&user=alice", p.1 ≠ "hash") ∧
    validate_init_data "auth_date=100&user=alice" "s3cr3t" = false := by
  have h : ∀ p ∈ parse_qsl "auth_date=100&user=alice", p.1 ≠ "hash" := by decide
  exact ⟨h, c4_verify_false_without_hash_key "auth_date=100&user=alice" "s3cr3t" h⟩

/-- C2: the embedded try-block (whose only raising operation on valid-Unicode
inputs is `compare_digest`, which raises `TypeError` on a non-ASCII received
hash) either returns a boolean or takes the modelled exception path, and
`validate_init_data` maps the exception path to `false` — malformed input and
internal errors collapse to the single outcome invalid, and no exception
reaches the caller. -/
theorem c2_verify_never_raises_fail_closed (init_data bot_token : String) :
    ((∃ b, validate_init_data_body init_data bot_token = Except.ok b) ∨
      validate_init_data_body init_data bot_token = Except.error ()) ∧
    (validate_init_data_body init_data bot_token = Except.error () →
      validate_init_data init_data bot_token = false) ∧
    (∀ b, validate_init_data_body init_data bot_token = Except.ok b →
      validate_init_data init_data bot_token = b) := by
  have heq : validate_init_data init_data bot_token =
      match validate_init_data_body init_data bot_token with
      | Except.ok b => b
      | Except.error _ => false := rfl
  refine ⟨?_, ?_, ?_⟩
  · cases hb : validate_init_data_body init_data bot_token with
    | ok b => exact Or.inl ⟨b, rfl⟩
    | error e =>
      cases e
      exact Or.inr rfl
  · intro hb
    rw [heq, hb]
  · intro b hb
    rw [heq, hb]

deriving instance DecidableEq for Except

theorem c2_witness :
    validate_init_data_body "hash=%C3%A9" "token" = Except.error () ∧
    validate_init_data "hash=%C3%A9" "token" = false := by
  have hb : validate_init_data_body "hash=%C3%A9" "token" = Except.error () := by decide
  exact ⟨hb, (c2_verify_never_raises_fail_closed "hash=%C3%A9" "token").2.1 hb⟩

/-- C6: `verify` is deterministic — two calls on identical input agree — and
its result does not depend on the order of the key/value pairs in the payload:
two payloads parsing to the same set of pairs (in any order, duplicate-free
keys) verify identically, because the check-string is canonicalised by
sorting. -/
theorem c6_verify_deterministic_order_independent (d1 d2 s : String) :
    (d1 = d2 → validate_init_data d1 s = validate_init_data d2 s) ∧
    ((parse_qsl d1).Perm (parse_qsl d2) → (keysOf (parse_qsl d1)).Nodup →
      validate_init_data d1 s = validate_init_data d2 s) := by
  constructor
  · intro h
    rw [h]
  · intro hp hn
    have hn2 : (keysOf (parse_qsl d2)).Nodup := ((hp.map Prod.fst).nodup_iff).mp hn
    show validatePairs (parse_qsl d1) s = validatePairs (parse_qsl d2) s
    unfold validatePairs validateCore
    rw [pyDict_of_nodup hn, pyDict_of_nodup hn2, verifyDict_congr s hp hn]

theorem c6_witness :
    ("ab" = "ab" ∧ validate_init_data "ab" "s" = validate_init_data "ab" "s") ∧
    ((parse_qsl "a=1&b=2&hash=x").Perm (parse_qsl "b=2&hash=x&a=1") ∧
      (keysOf (parse_qsl "a=1&b=2&hash=x")).Nodup ∧
      validate_init_data "a=1&b=2&hash=x" "s" = validate_init_data "b=2&hash=x&a=1" "s") := by
  have hp : (parse_qsl "a=1&b=2&hash=x").Perm (parse_qsl "b=2&hash=x&a=1") := by decide
  have hn : (keysOf (parse_qsl "a=1&b=2&hash=x")).Nodup := by decide
  exact ⟨⟨rfl, (c6_verify_deterministic_order_independent "ab" "ab" "s").1 rfl⟩,
    hp, hn, (c6_verify_deterministic_order_independent "a=1&b=2&hash=x" "b=2&hash=x&a=1" "s").2 hp hn⟩

/-- C9: only the last occurrence of each duplicated key contributes —
`dict(parse_qsl(...))` keeps the last value per key, so `verify` gives the
same result as on the pair list with all but the last occurrence of each
duplicated key removed. -/
theorem c9_last_occurrence_of_duplicate_keys_wins (init_data secret : String) :
    validate_init_data init_data secret = validatePairs (dedupLast (parse_qsl init_data)) secret := by
  show validatePairs (parse_qsl init_data) secret = _
  unfold validatePairs validateCore
  rw [pyDict_of_nodup (dedupLast_keys_nodup _),
    verifyDict_congr secret (pyDict_perm_dedupLast (parse_qsl init_data)) (pyDict_keys_nodup _)]

/-- Python `str.upper()` restricted to the ASCII data that occurs here
(`Char.toUpper` character-wise). -/
def upperHex (s : String) : String := String.mk (s.data.map Char.toUpper)

theorem list_map_eq_self {α : Type} {f : α → α} : ∀ {l : List α}, l.map f = l → ∀ x ∈ l, f x = x
  | [], _, x, hx => by cases hx
  | a :: t, h, x, hx => by
    rw [List.map_cons] at h
    injection h with h1 h2
    rcases List.mem_cons.mp hx with e | e
    · exact e ▸ h1
    · exact list_map_eq_self h2 x e

theorem hex_toUpper_ascii : ∀ c ∈ hexCharsLower, (Char.toUpper c).toNat < 128 := by decide

theorem abcdef_toUpper_ne : ∀ c ∈ "abcdef".data, Char.toUpper c ≠ c := by decide

/-- C10: the signature comparison is case-sensitive against a lowercase hex
rendering — whenever the payload's `hash` field carries the uppercase-hex form
of the recomputed signature and that signature contains at least one
alphabetic hex digit, `verify` returns false. -/
theorem c10_uppercase_hash_is_rejected (init_data secret h : String)
    (rest : List (String × String))
    (hp : popKey "hash" (pyDict (parse_qsl init_data)) = some (h, rest))
    (hu : h = upperHex (calculated_hash secret rest))
    (ha : ∃ c ∈ (calculated_hash secret rest).data, c ∈ "abcdef".data) :
    validate_init_data init_data secret = false := by
  have hchars : ∀ c ∈ (calculated_hash secret rest).data, c ∈ hexCharsLower :=
    hexdigest_chars _ _
  have hAsciiH : isAsciiStr h = true := by
    rw [hu]
    unfold isAsciiStr upperHex
    rw [List.all_eq_true]
    intro c hc
    obtain ⟨c0, hc0, hce⟩ := List.mem_map.mp hc
    rw [← hce]
    exact decide_eq_true (hex_toUpper_ascii c0 (hchars c0 hc0))
  unfold validate_init_data validatePairs validateCore verifyDict
  rw [hp]
  show (match compare_digest h (calculated_hash secret rest) with
    | Except.ok b => b
    | Except.error _ => false) = false
  rw [compare_digest_ok hAsciiH (calculated_hash_ascii secret rest)]
  show (h == calculated_hash secret rest) = false
  rw [beq_eq_false_iff_ne]
  intro he
  rw [hu] at he
  have hdata : (calculated_hash secret rest).data.map Char.toUpper =
      (calculated_hash secret rest).data := congrArg String.data he
  obtain ⟨c, hcmem, hcabc⟩ := ha
  exact abcdef_toUpper_ne c hcabc (list_map_eq_self hdata c hcmem)

set_option maxRecDepth 10000 in
theorem calculated_hash_auth_date_100 :
    calculated_hash "s3cr3t" [("auth_date", "100")] =
      "1ccdc4ec91b540d572e119cf90d75aca32c66b0a55750c46c68560d240e4599d" := by
  decide

set_option maxRecDepth 10000 in
theorem c10_witness :
    popKey "hash"
      (pyDict (parse_qsl
        "auth_date=100&hash=1CCDC4EC91B540D572E119CF90D75ACA32C66B0A55750C46C68560D240E4599D")) =
      some ("1CCDC4EC91B540D572E119CF90D75ACA32C66B0A55750C46C68560D240E4599D",
        [("auth_date", "100")]) ∧
    "1CCDC4EC91B540D572E119CF90D75ACA32C66B0A55750C46C68560D240E4599D" =
      upperHex (calculated_hash "s3cr3t" [("auth_date", "100")]) ∧
    (∃ c ∈ (calculated_hash "s3cr3t" [("auth_date", "100")]).data, c ∈ "abcdef".data) ∧
    validate_init_data
      "auth_date=100&hash=1CCDC4EC91B540D572E119CF90D75ACA32C66B0A55750C46C68560D240E4599D"
      "s3cr3t" = false := by
  have h1 : popKey "hash"
      (pyDict (parse_qsl
        "auth_date=100&hash=1CCDC4EC91B540D572E119CF90D75ACA32C66B0A55750C46C68560D240E4599D")) =
      some ("1CCDC4EC91B540D572E119CF90D75ACA32C66B0A55750C46C68560D240E4599D",
        [("auth_date", "100")]) := by decide
  have h2 : "1CCDC4EC91B540D572E119CF90D75ACA32C66B0A55750C46C68560D240E4599D" =
      upperHex (calculated_hash "s3cr3t" [("auth_date", "100")]) := by
    rw [calculated_hash_auth_date_100]
    decide
  have h3 : ∃ c ∈ (calculated_hash "s3cr3t" [("auth_date", "100")]).data, c ∈ "abcdef".data := by
    rw [calculated_hash_auth_date_100]
    decide
  exact ⟨h1, h2, h3, c10_uppercase_hash_is_rejected _ "s3cr3t" _ _ h1 h2 h3⟩

/-- The signature of the concrete scenario of section 8: computed per the
section 4.1 algorithm over the check-string `auth_date=100` + newline +
`user=` followed by the decoded JSON object, with secret `"s3cr3t"`. -/
def scenarioH : String :=
  String.mk (bytesHex (hmacSha256 (specSecondaryKey "s3cr3t")
    (strBytes "auth_date=100\nuser=\x7b\x22id\x22:1\x7d")))

set_option maxRecDepth 10000 in
theorem scenarioH_eq :
    scenarioH = "74610b64e67bedec8a2d19f6b8cec164a62fff2ba6b563e61b342a49049efb76" := by
  decide

set_option maxRecDepth 100000 in
/-- C5: concrete scenario — with secret `"s3cr3t"` and the percent-encoded
payload carrying `auth_date=100`, the JSON user object and `hash=<H>` where
`H` is computed per section 4.1 over the decoded check-string, `verify`
accepts; changing `auth_date` to `101` while keeping the same `H` makes it
reject. -/
theorem c5_concrete_scenario :
    validate_init_data ("auth_date=100&user=%7B%22id%22%3A1%7D&hash=" ++ scenarioH) "s3cr3t" = true ∧
    validate_init_data ("auth_date=101&user=%7B%22id%22%3A1%7D&hash=" ++ scenarioH) "s3cr3t" = false := by
  rw [scenarioH_eq]
  constructor
  · decide
  · decide
